import Mathlib

/-!
Verification of the in-memory file-tree model, the editor undo/redo history
buffer, and the chat send/scan logic of the code-scribe-weaver mini-IDE.

The TypeScript source keeps the file tree as a nested array of `FileNode`
records whose `children` field is optional (`children?: FileNode[]`).  Since
Lean 4.14 does not support structural recursion through `Option (List _)`,
the tree is embedded as a mutual inductive: `OptNodes` plays the role of the
optional `children` field (`OptNodes.none` = field absent) and `NodeList`
plays the role of the child array.  All functions are straight transcriptions
of the component code; wall-clock values (`Date.now()`, `lastModified`,
`Math.random()`) enter as explicit parameters, and `lastModified` is dropped
because no claim observes it.
-/

namespace CodeScribe

/-- The `type: 'file' | 'folder'` discriminator of a `FileNode`. -/
inductive NodeType : Type where
  | file
  | folder
deriving DecidableEq

mutual
/-- One node of the explorer tree: `interface FileNode` in FileExplorer.tsx
(`lastModified` omitted; it is an opaque wall-clock value no claim uses). -/
inductive FileNode : Type where
  | mk (id : String) (name : String) (type : NodeType)
       (children : OptNodes) (content : Option String)
       (size : Option Nat) : FileNode
/-- The optional `children?: FileNode[]` field: `none` models the field being
absent (JS `undefined`), `some l` models a present array (possibly empty). -/
inductive OptNodes : Type where
  | none : OptNodes
  | some (l : NodeList) : OptNodes
/-- An array of `FileNode`s. -/
inductive NodeList : Type where
  | nil : NodeList
  | cons (hd : FileNode) (tl : NodeList) : NodeList
end
deriving instance DecidableEq for FileNode, OptNodes, NodeList

def FileNode.id : FileNode → String
  | .mk i _ _ _ _ _ => i

def FileNode.name : FileNode → String
  | .mk _ nm _ _ _ _ => nm

def FileNode.type : FileNode → NodeType
  | .mk _ _ ty _ _ _ => ty

def FileNode.children : FileNode → OptNodes
  | .mk _ _ _ ch _ _ => ch

def FileNode.content : FileNode → Option String
  | .mk _ _ _ _ ct _ => ct

def FileNode.size : FileNode → Option Nat
  | .mk _ _ _ _ _ sz => sz

/-- Replace the `children` field, keeping every other field (the
`{ ...node, children: c }` spread idiom). -/
def FileNode.setChildren : FileNode → OptNodes → FileNode
  | .mk i nm ty _ ct sz, ch => .mk i nm ty ch ct sz

/-- Replace the `name` field, keeping every other field (the
`{ ...file, name: editName }` spread idiom used by rename). -/
def FileNode.setName : FileNode → String → FileNode
  | .mk i _ ty ch ct sz, nm => .mk i nm ty ch ct sz

def NodeList.length : NodeList → Nat
  | .nil => 0
  | .cons _ tl => tl.length + 1

def NodeList.toList : NodeList → List FileNode
  | .nil => []
  | .cons n tl => n :: tl.toList

/-- JS `array.push(x)` (append at the end). -/
def NodeList.push : NodeList → FileNode → NodeList
  | .nil, x => .cons x .nil
  | .cons n tl, x => .cons n (tl.push x)

/-- JS `array.some(p)`. -/
def NodeList.any (p : FileNode → Bool) : NodeList → Bool
  | .nil => false
  | .cons n tl => p n || NodeList.any p tl

/-- JS `array.filter(p)`. -/
def NodeList.filter (p : FileNode → Bool) : NodeList → NodeList
  | .nil => .nil
  | .cons n tl => if p n then .cons n (NodeList.filter p tl) else NodeList.filter p tl

/-- JS `array[0]` (as an option). -/
def NodeList.head? : NodeList → Option FileNode
  | .nil => Option.none
  | .cons n _ => Option.some n

/-- JS `array[i]` (as an option). -/
def NodeList.get? : NodeList → Nat → Option FileNode
  | .nil, _ => Option.none
  | .cons n _, 0 => Option.some n
  | .cons _ tl, i + 1 => tl.get? i

/-- The child array of a node, taking the absent field as the empty array. -/
def FileNode.childNodes (n : FileNode) : NodeList :=
  match n.children with
  | .none => .nil
  | .some cs => cs

/-- JS `String.prototype.trim`: drop leading and trailing whitespace.
(Defined over the character list because the core `String.trim` does not
evaluate inside the kernel.) -/
def strTrim (s : String) : String :=
  String.mk (((s.data.dropWhile Char.isWhitespace).reverse.dropWhile
    Char.isWhitespace).reverse)

/-- JS `s.includes(c)` for a single character (the core `String.contains`
does not evaluate inside the kernel). -/
def strHasChar (s : String) (c : Char) : Bool :=
  s.data.any (fun d => d = c)

/-- The first character of `s` is `c` (JS `/^c/.test(s)`). -/
def strStartsWithChar (s : String) (c : Char) : Bool :=
  match s.data with
  | [] => false
  | d :: _ => d = c

/-- JS `String.prototype.toLowerCase`, modelled as the ASCII character-wise
lowering `Char.toLower` (defined over the character list because the core
`String.toLower` does not evaluate inside the kernel). -/
def strToLower (s : String) : String :=
  String.mk (s.data.map Char.toLower)

/-- Model of `validateFileName` (FileExplorer.tsx lines 94-100): returns an error
message for an empty (after trim) name, a name containing `/` or `\`, a name
longer than 255 characters, or a name starting with a dot. -/
def validateFileName (name : String) : Option String :=
  if strTrim name = "" then Option.some ("File name cannot be empty")
  else if strHasChar name '/' || strHasChar name '\\' then
    Option.some ("Invalid characters in file name")
  else if 255 < name.length then Option.some ("File name too long")
  else if strStartsWithChar name '.' then
    Option.some ("File name cannot start with a dot")
  else Option.none

mutual
/-- Model of `findFileById` (lines 102-111): depth-first search, first match wins. -/
def findFileById (tid : String) : NodeList → Option FileNode
  | .nil => Option.none
  | .cons (FileNode.mk i nm ty ch ct sz) rest =>
    if i = tid then Option.some (FileNode.mk i nm ty ch ct sz)
    else
      match findBelow tid ch with
      | Option.some f => Option.some f
      | Option.none => findFileById tid rest
/-- The `if (node.children) { ... recurse ... }` step of `findFileById`. -/
def findBelow (tid : String) : OptNodes → Option FileNode
  | .none => Option.none
  | .some cs => findFileById tid cs
end

mutual
/-- Model of `updateFileInTree` (lines 113-123): map every node; a node whose id
matches is replaced by `updater node` (children not recursed), any other node
keeps its fields with its children updated recursively. -/
def updateFileInTree (tid : String) (updater : FileNode → FileNode) : NodeList → NodeList
  | .nil => .nil
  | .cons (FileNode.mk i nm ty ch ct sz) rest =>
    NodeList.cons
      (if i = tid then updater (FileNode.mk i nm ty ch ct sz)
       else FileNode.mk i nm ty (updateBelow tid updater ch) ct sz)
      (updateFileInTree tid updater rest)
/-- The `if (node.children) { ...spread with recursed children }` step. -/
def updateBelow (tid : String) (updater : FileNode → FileNode) : OptNodes → OptNodes
  | .none => .none
  | .some cs => .some (updateFileInTree tid updater cs)
end

mutual
/-- Model of `deleteFileFromTree` (lines 125-133): drop every node whose id matches;
kept nodes have their children filtered recursively. -/
def deleteFileFromTree (tid : String) : NodeList → NodeList
  | .nil => .nil
  | .cons (FileNode.mk i nm ty ch ct sz) rest =>
    if i = tid then deleteFileFromTree tid rest
    else NodeList.cons (FileNode.mk i nm ty (deleteBelow tid ch) ct sz)
      (deleteFileFromTree tid rest)
/-- The in-place `node.children = deleteFileFromTree(targetId, node.children)`
step, as a pure function. -/
def deleteBelow (tid : String) : OptNodes → OptNodes
  | .none => .none
  | .some cs => .some (deleteFileFromTree tid cs)
end

/-- Whether `pat` occurs as a leading run of `s` (helper for substring search). -/
def startsWithChars : List Char → List Char → Bool
  | [], _ => true
  | _ :: _, [] => false
  | c :: cs, d :: ds => c = d && startsWithChars cs ds

/-- Whether `pat` occurs somewhere inside `s`: JS `String.prototype.includes`. -/
def hasSubChars (pat : List Char) : List Char → Bool
  | [] => startsWithChars pat []
  | c :: rest => startsWithChars pat (c :: rest) || hasSubChars pat rest

/-- The search predicate of `filteredFiles`:
`node.name.toLowerCase().includes(searchTerm.toLowerCase())`. -/
def nameMatches (term : String) (nm : String) : Bool :=
  hasSubChars (strToLower term).data (strToLower nm).data

mutual
/-- The recursive `.filter(...).map(...)` body of `filteredFiles`
(lines 312-326), generalized over the name predicate `pred` (the source
instantiates `pred` with `nameMatches searchTerm`; the two passes of the
source are fused into one, which is observably identical for pure callbacks).
A node is kept when its name matches or its (present) filtered children are
non-empty; every kept node with a present `children` field has its children
replaced by the recursively filtered children. -/
def filterNodes (pred : String → Bool) : NodeList → NodeList
  | .nil => .nil
  | .cons (FileNode.mk i nm ty ch ct sz) rest =>
    if pred nm || keepBelow pred ch then
      NodeList.cons (FileNode.mk i nm ty (filterBelow pred ch) ct sz)
        (filterNodes pred rest)
    else filterNodes pred rest
/-- The `node.children ? filteredFiles(node.children).length > 0 : false`
test of the filter callback. -/
def keepBelow (pred : String → Bool) : OptNodes → Bool
  | .none => false
  | .some cs => decide (0 < (filterNodes pred cs).length)
/-- The `{ ...node, children: filteredFiles(node.children) }` step of the map
callback (`none` children stay absent, as in `return node`). -/
def filterBelow (pred : String → Bool) : OptNodes → OptNodes
  | .none => .none
  | .some cs => .some (filterNodes pred cs)
end

/-- Model of `filteredFiles` (lines 309-327): with an empty search term the node list
is returned unchanged (`if (!searchTerm) return nodes`), otherwise the
recursive filter runs with the case-insensitive name-substring predicate. -/
def filteredFiles (searchTerm : String) (nodes : NodeList) : NodeList :=
  if searchTerm = "" then nodes else filterNodes (nameMatches searchTerm) nodes

/-- The children of the root entry `files[0]`, i.e. `files[0]?.children`,
taking a missing entry or absent field as `none`. -/
def rootChildren : NodeList → Option NodeList
  | .nil => Option.none
  | .cons r _ =>
    match r.children with
    | .none => Option.none
    | .some cs => Option.some cs

/-- The node built by `createNewFile` for a valid name (`lastModified`
dropped); `Date.now().toString()` enters as the `newId` parameter. -/
def newFileNode (newId : String) (name : String) : FileNode :=
  FileNode.mk newId name NodeType.file OptNodes.none (Option.some ("// New file\n"))
    (Option.some 13)

/-- The duplicate test of `createNewFile` (line 181):
`files[0]?.children?.some(child => child.name === newFileName)`. -/
def isDuplicateName (files : NodeList) (newFileName : String) : Bool :=
  match rootChildren files with
  | Option.some cs => cs.any (fun c => c.name = newFileName)
  | Option.none => false

/-- The `setFiles` updater of `createNewFile` (lines 197-203): push the new
node into `files[0].children` when that entry and field exist, otherwise
leave the list unchanged. -/
def pushIntoRoot (files : NodeList) (nf : FileNode) : NodeList :=
  match files with
  | .nil => .nil
  | .cons r rest =>
    match r.children with
    | .some cs => NodeList.cons (r.setChildren (OptNodes.some (cs.push nf))) rest
    | .none => NodeList.cons r rest

/-- Model of `createNewFile` (lines 172-210).  An error result models the early
returns that show a toast and leave `files` untouched; an ok result carries
the new list stored by `setFiles`. -/
def createNewFile (files : NodeList) (newFileName : String) (newId : String) :
    Except String NodeList :=
  match validateFileName newFileName with
  | Option.some err => Except.error err
  | Option.none =>
    if isDuplicateName files newFileName then
      Except.error ("File with this name already exists")
    else Except.ok (pushIntoRoot files (newFileNode newId newFileName))

/-- Model of `confirmEdit` (lines 258-271): renaming re-runs only `validateFileName`
(there is no sibling-collision test); on success the node with the edited id
gets its `name` replaced via `updateFileInTree`. -/
def confirmEdit (files : NodeList) (editingFile : Option String) (editName : String) :
    Except String NodeList :=
  match editingFile with
  | Option.none => Except.ok files
  | Option.some fid =>
    match validateFileName editName with
    | Option.some err => Except.error err
    | Option.none =>
      Except.ok (updateFileInTree fid (fun file => file.setName editName) files)

/-- Model of `deleteFile` (lines 273-288) acting on the pair (tree, selected node):
no-op when the id is not found; otherwise the node is removed everywhere and,
when the deleted node was selected, the first remaining root-level child (the
old `files[0].children` minus the deleted id) becomes selected — when no
such child exists `onFileSelect` is never called, so the selection value is
left as it was. -/
def deleteFile (files : NodeList) (selectedFile : Option FileNode) (fileId : String) :
    NodeList × Option FileNode :=
  match findFileById fileId files with
  | Option.none => (files, selectedFile)
  | Option.some _ =>
    let newFiles := deleteFileFromTree fileId files
    let newSelected :=
      match selectedFile with
      | Option.some s =>
        if s.id = fileId then
          match rootChildren files with
          | Option.some cs =>
            match (cs.filter (fun f => !(f.id = fileId))).head? with
            | Option.some f => Option.some f
            | Option.none => selectedFile
          | Option.none => selectedFile
        else selectedFile
      | Option.none => selectedFile
    (newFiles, newSelected)

mutual
/-- A node's name matches, or some descendant's name matches. -/
def hasMatchNode (pred : String → Bool) : FileNode → Bool
  | FileNode.mk _ nm _ ch _ _ => pred nm || hasMatchBelow pred ch
/-- Some node in the optional child array has a matching name (its own or a
descendant's). -/
def hasMatchBelow (pred : String → Bool) : OptNodes → Bool
  | .none => false
  | .some cs => hasMatchNodes pred cs
/-- Some node in the array has a matching name (its own or a descendant's). -/
def hasMatchNodes (pred : String → Bool) : NodeList → Bool
  | .nil => false
  | .cons n rest => hasMatchNode pred n || hasMatchNodes pred rest
end

mutual
/-- Modelled from the spec's words (§4.1 `filter`): keep exactly the nodes
whose name matches the predicate or that contain a descendant with a matching
name; a retained node keeps only the children that survive the same filter
applied recursively.  Stated to be compared with the source's `filterNodes`. -/
def filterSpecNodes (pred : String → Bool) : NodeList → NodeList
  | .nil => .nil
  | .cons (FileNode.mk i nm ty ch ct sz) rest =>
    if pred nm || hasMatchBelow pred ch then
      NodeList.cons (FileNode.mk i nm ty (filterSpecBelow pred ch) ct sz)
        (filterSpecNodes pred rest)
    else filterSpecNodes pred rest
/-- Children of a retained node under the spec's filter. -/
def filterSpecBelow (pred : String → Bool) : OptNodes → OptNodes
  | .none => .none
  | .some cs => .some (filterSpecNodes pred cs)
end

mutual
/-- All node ids of an array in depth-first (preorder, display) order. -/
def preorderIds : NodeList → List String
  | .nil => []
  | .cons (FileNode.mk i _ _ ch _ _) rest => i :: (preorderIdsBelow ch ++ preorderIds rest)
/-- All node ids below an optional child array, preorder. -/
def preorderIdsBelow : OptNodes → List String
  | .none => []
  | .some cs => preorderIds cs
end

/-- The node sitting at a position path: `i :: p` selects the `i`-th entry of
the array and, when `p` is non-empty, continues inside its child array (an
absent `children` field acts as the empty array, so such paths fail). -/
def getAtPath (nodes : NodeList) : List Nat → Option FileNode
  | [] => Option.none
  | [i] => nodes.get? i
  | i :: j :: p =>
    match nodes.get? i with
    | Option.none => Option.none
    | Option.some n => getAtPath n.childNodes (j :: p)

/-! CodeEditor.tsx model: the undo/redo history buffer. -/

/-- The `interface HistoryState` of CodeEditor.tsx: one content snapshot plus a
cursor offset. -/
structure HistoryState where
  content : String
  cursor : Nat
deriving DecidableEq

/-- Model of `addToHistory` (CodeEditor lines 100-107) acting on the pair
(history, historyIndex): truncate after the cursor (`slice(0, index + 1)`),
append the new entry, keep only the last 50 entries (`slice(-50)`), and move
the index to `min(index + 1, 49)`. -/
def addToHistory (history : List HistoryState) (historyIndex : Nat)
    (content : String) (cursor : Nat) : List HistoryState × Nat :=
  let newHistory := history.take (historyIndex + 1) ++ [⟨content, cursor⟩]
  (newHistory.drop (newHistory.length - 50), min (historyIndex + 1) 49)

/-- Model of `handleUndo` (lines 109-118): when the index is positive, step it back
and report the entry now pointed to (the one passed to `onChange`); otherwise
nothing happens and nothing is reported. -/
def handleUndo (history : List HistoryState) (historyIndex : Nat) :
    Nat × Option HistoryState :=
  if 0 < historyIndex then (historyIndex - 1, history[historyIndex - 1]?)
  else (historyIndex, Option.none)

/-- Model of `handleRedo` (lines 120-129): when the index is below `length - 1`, step
it forward and report the entry now pointed to; otherwise a no-op. -/
def handleRedo (history : List HistoryState) (historyIndex : Nat) :
    Nat × Option HistoryState :=
  if historyIndex + 1 < history.length then (historyIndex + 1, history[historyIndex + 1]?)
  else (historyIndex, Option.none)

/-- One user-level operation on the history buffer. -/
inductive HistOp : Type where
  | push (content : String) (cursor : Nat)
  | undo
  | redo
deriving DecidableEq

/-- Apply one operation to the (history, index) state: a push runs
`addToHistory`, undo/redo move the index via `handleUndo`/`handleRedo`
(the buffer itself is untouched by undo/redo). -/
def histStep (s : List HistoryState × Nat) : HistOp → List HistoryState × Nat
  | .push content cursor => addToHistory s.1 s.2 content cursor
  | .undo => (s.1, (handleUndo s.1 s.2).1)
  | .redo => (s.1, (handleRedo s.1 s.2).1)

/-- The editor's initial history state (CodeEditor lines 44-45):
one entry holding the initial content, index 0. -/
def initHistory (value : String) : List HistoryState × Nat := ([⟨value, 0⟩], 0)

/-- Run a sequence of history operations from the initial state. -/
def runOps (value : String) (ops : List HistOp) : List HistoryState × Nat :=
  ops.foldl histStep (initHistory value)

/-- The history-buffer invariant: non-empty, at most 50 entries, index in
bounds. -/
def HistInv (s : List HistoryState × Nat) : Prop :=
  0 < s.1.length ∧ s.1.length ≤ 50 ∧ s.2 < s.1.length

/-- A list of `n` pushes with pairwise distinct contents `"1" … "n"` (cursor 0). -/
def pushOps (n : Nat) : List HistOp :=
  (List.range n).map (fun k => HistOp.push (toString (k + 1)) 0)

/-! AIChat.tsx model: input validation, the canned response generator, the
fenced-code-block scan and the send state transition. -/

/-- The `role` of a chat `Message`. -/
inductive ChatRole : Type where
  | user
  | assistant
deriving DecidableEq

/-- The transient delivery `status` of a `Message`. -/
inductive MsgStatus : Type where
  | sending
  | sent
  | error
deriving DecidableEq

/-- The `connectionStatus` state of AIChat.tsx (line 49). -/
inductive ConnStatus : Type where
  | connected
  | disconnected
  | error
deriving DecidableEq

/-- The `interface Message` of AIChat.tsx (`timestamp` omitted: an opaque
wall-clock value no claim observes). -/
structure Message where
  id : String
  role : ChatRole
  content : String
  status : Option MsgStatus
  tokens : Option Nat
deriving DecidableEq

/-- The spread update `\x7b ...msg, status: s \x7d`. -/
def Message.setStatus (m : Message) (s : Option MsgStatus) : Message :=
  { m with status := s }

/-- Model of `validateInput` (AIChat lines 70-75). -/
def validateInput (text : String) : Option String :=
  if strTrim text = "" then Option.some ("Please enter a message")
  else if 4000 < text.length then Option.some ("Message too long (max 4000 characters)")
  else if text.length < 3 then Option.some ("Message too short (min 3 characters)")
  else Option.none

/-- JS `s.includes(pat)` for plain strings. -/
def strIncludes (s : String) (pat : String) : Bool :=
  hasSubChars pat.data s.data

/-- Model of `userInput.replace(/\s+/g, '')`: removing every whitespace run is
removing every whitespace character. -/
def stripWhitespaceChars (s : String) : String :=
  String.mk (s.data.filter (fun c => !c.isWhitespace))

/-- Model of `generateEnhancedResponse` (AIChat lines 185-197), transcribed with the
braces of the embedded code templates written as `\x7b`/`\x7d` escapes;
`toLowerCase` is modelled by `String.toLower`. -/
def generateEnhancedResponse (userInput : String) : String :=
  let lowercaseInput := strToLower userInput
  if strIncludes lowercaseInput ("react") || strIncludes lowercaseInput ("component") then
    "I'll help you create a React component! Here's a modern example:\n\n```jsx\nimport React, \x7b useState \x7d from 'react';\nimport './Component.css';\n\nfunction MyComponent() \x7b\n  const [count, setCount] = useState(0);\n\n  return (\n    <div className=\"my-component\">\n      <h2>Hello from React!</h2>\n      <p>Count: \x7bcount\x7d</p>\n      <button onClick=\x7b() => setCount(count + 1)\x7d>\n        Increment\n      </button>\n    </div>\n  );\n\x7d\n\nexport default MyComponent;\n```\n\nThis component includes state management and modern React patterns. Would you like me to add styling or additional features?"
  else if strIncludes lowercaseInput ("api") || strIncludes lowercaseInput ("fetch") then
    "Here's a robust API integration example:\n\n```javascript\nasync function fetchData(url, options = \x7b\x7d) \x7b\n  try \x7b\n    const response = await fetch(url, \x7b\n      method: 'GET',\n      headers: \x7b\n        'Content-Type': 'application/json',\n        ...options.headers\n      \x7d,\n      ...options\n    \x7d);\n\n    if (!response.ok) \x7b\n      throw new Error(`HTTP error! status: $\x7bresponse.status\x7d`);\n    \x7d\n\n    const data = await response.json();\n    return \x7b success: true, data \x7d;\n  \x7d catch (error) \x7b\n    console.error('Fetch error:', error);\n    return \x7b success: false, error: error.message \x7d;\n  \x7d\n\x7d\n\n// Usage\nconst result = await fetchData('/api/users');\nif (result.success) \x7b\n  console.log(result.data);\n\x7d else \x7b\n  console.error(result.error);\n\x7d\n```\n\nThis includes proper error handling and response validation!"
  else
    "I understand you want to " ++ lowercaseInput ++
    ". Here's a code example to get you started:\n\n```javascript\n// " ++ userInput ++
    " implementation\nfunction " ++ stripWhitespaceChars userInput ++
    "Solution() \x7b\n  // TODO: Implement your " ++ userInput ++
    " logic here\n  console.log('Starting " ++ userInput ++
    " implementation...');\n  \n  const result = \x7b\n    status: 'success',\n    message: 'Implementation ready',\n    data: []\n  \x7d;\n  \n  return result;\n\x7d\n\n// Execute the function\nconst output = " ++
    stripWhitespaceChars userInput ++
    "Solution();\nconsole.log(output);\n```\n\nThis provides a solid foundation. Would you like me to add more specific functionality?"

/-- The backtick character (written by code to avoid a literal backtick). -/
def btick : Char := Char.ofNat 96

/-- A code fence: three backticks. -/
def fenceChars : List Char := [btick, btick, btick]

/-- JS regex `\w`: ASCII letter, digit or underscore. -/
def wordChar (c : Char) : Bool := c.isAlphanum || c = '_'

/-- The lazy `([\s\S]*?)\n\x60\x60\x60` tail of the code-block regex: return
the characters before the first occurrence of newline-plus-fence, or `none`
when no closing fence follows. -/
def findClose : List Char → Option (List Char)
  | [] => Option.none
  | c :: rest =>
    if c = '\n' ∧ rest.take 3 = fenceChars then Option.some []
    else (findClose rest).map (fun b => c :: b)

/-- Whether the code-block regex of AIChat line 135 matches at the start of
`s`: a fence, a greedy optional run of word characters (the language tag), a
newline, then the lazily matched body up to the first closing fence. -/
def matchAt (s : List Char) : Option (List Char) :=
  if s.take 3 = fenceChars then
    match (s.drop 3).dropWhile wordChar with
    | c :: body => if c = '\n' then findClose body else Option.none
    | [] => Option.none
  else Option.none

/-- Leftmost-match search: the body of the first position where the
code-block regex matches. -/
def scanFor : List Char → Option (List Char)
  | [] => Option.none
  | c :: rest =>
    match matchAt (c :: rest) with
    | Option.some b => Option.some b
    | Option.none => scanFor rest

/-- Model of the line-135 scan `content.match(...)` with the code-block regex
followed by taking capture group 2 — the candidate code snippet. -/
def extractCodeBlock (s : String) : Option String :=
  (scanFor s.data).map (fun l => String.mk l)

/-- Whether `s` decomposes at `pre` into a fenced code block with language tag
`lang`, body `body` and remainder `post`. -/
def IsFencedAt (s : List Char) (pre lang body post : List Char) : Prop :=
  s = pre ++ (fenceChars ++ (lang ++ '\n' :: (body ++ '\n' :: (fenceChars ++ post)))) ∧
    lang.all wordChar = true

/-- Whether the single simulated generation request of a send succeeds or
fails (the `try`/`catch` split of `handleSend`; the failure point models a
network failure or non-success status of the awaited call). -/
inductive SendOutcome : Type where
  | success
  | failure
deriving DecidableEq

/-- The chat component state a send touches. -/
structure ChatState where
  messages : List Message
  connectionStatus : ConnStatus
  retryCount : Nat
deriving DecidableEq

/-- What one `handleSend` call produces: the new state, the code snippet
offered through the "Add to Editor" toast (if any), and how many generation
requests the call issued. -/
structure SendResult where
  state : ChatState
  offeredCode : Option String
  requestsMade : Nat
deriving DecidableEq

/-- Model of `handleSend` (AIChat lines 77-183).  `Date.now()` enters as `now` (user
message id `toString now`, ai reply id `toString (now+1)`, error entry id
`toString (now+2)`), the random token count as `tokens`, and the fate of the
awaited generation request as `outcome`.  Exactly one request is issued per
call that passes validation (`requestsMade = 1`): the catch branch only
surfaces a toast whose Retry button lets the user call `handleSend` again. -/
def handleSend (st : ChatState) (input : String) (now : Nat) (tokens : Nat)
    (outcome : SendOutcome) : SendResult :=
  match validateInput input with
  | Option.some _ => ⟨st, Option.none, 0⟩
  | Option.none =>
    let userId := toString now
    let userMessage : Message :=
      ⟨userId, ChatRole.user, strTrim input, Option.some MsgStatus.sending, Option.none⟩
    let markedSent :=
      (st.messages ++ [userMessage]).map (fun msg =>
        if msg.id = userId then msg.setStatus (Option.some MsgStatus.sent) else msg)
    match outcome with
    | SendOutcome.success =>
      let responseText := generateEnhancedResponse input
      let aiResponse : Message :=
        ⟨toString (now + 1), ChatRole.assistant, responseText,
          Option.some MsgStatus.sent, Option.some tokens⟩
      ⟨⟨markedSent ++ [aiResponse], ConnStatus.connected, 0⟩,
        extractCodeBlock responseText, 1⟩
    | SendOutcome.failure =>
      let errorMessage : Message :=
        ⟨toString (now + 2), ChatRole.assistant,
          "Sorry, I encountered an error. Please check your Ollama connection and try again.",
          Option.some MsgStatus.error, Option.none⟩
      ⟨⟨markedSent ++ [errorMessage], ConnStatus.error, st.retryCount + 1⟩,
        Option.none, 1⟩

/-! Derived definitions used only to state the properties. -/

/-- The per-node transform `updateFileInTree` applies at every level: replace
a matching node, otherwise keep the node with recursively updated children. -/
def updOne (tid : String) (updater : FileNode → FileNode) (n : FileNode) : FileNode :=
  if n.id = tid then updater n
  else n.setChildren (updateBelow tid updater n.children)

/-- The name-only rejection conditions the claims list for a name: empty
after trimming, containing a path separator, longer than 255 characters, or
starting with a dot (the rename claim's list without the sibling collision). -/
def NameRejects (name : String) : Prop :=
  strTrim name = "" ∨ strHasChar name '/' = true ∨ strHasChar name '\\' = true ∨
    255 < name.length ∨ strStartsWithChar name '.' = true

instance (name : String) : Decidable (NameRejects name) := by
  unfold NameRejects
  infer_instance

/-- The rejection conditions the create claim lists for a new name: the name
conditions plus a name collision with an existing sibling in `siblings`. -/
def CreateRejects (name : String) (siblings : NodeList) : Prop :=
  NameRejects name ∨ ∃ c ∈ siblings.toList, c.name = name

instance (name : String) (siblings : NodeList) : Decidable (CreateRejects name siblings) := by
  unfold CreateRejects
  infer_instance

/-- A small concrete file node: `a.js`, id 2. -/
def demoA : FileNode :=
  FileNode.mk ("2") ("a.js") NodeType.file OptNodes.none (Option.some ("// a\n"))
    (Option.some 5)

/-- A small concrete file node: `b.js`, id 3. -/
def demoB : FileNode :=
  FileNode.mk ("3") ("b.js") NodeType.file OptNodes.none (Option.some ("// b\n"))
    (Option.some 5)

/-- A root folder with no children yet. -/
def demoRoot : FileNode :=
  FileNode.mk ("1") ("src") NodeType.folder (OptNodes.some NodeList.nil) Option.none
    Option.none

/-- A tree holding just the empty root folder. -/
def demoFiles : NodeList := NodeList.cons demoRoot NodeList.nil

/-- A tree whose root folder holds `a.js` and `b.js`. -/
def demoTwoFiles : NodeList :=
  NodeList.cons
    (FileNode.mk ("1") ("src") NodeType.folder
      (OptNodes.some (NodeList.cons demoA (NodeList.cons demoB NodeList.nil)))
      Option.none Option.none)
    NodeList.nil

/-- A tree whose root folder holds only `a.js`. -/
def demoSingle : NodeList :=
  NodeList.cons
    (FileNode.mk ("1") ("src") NodeType.folder
      (OptNodes.some (NodeList.cons demoA NodeList.nil))
      Option.none Option.none)
    NodeList.nil

/-! Theorems.  Helper lemmas come first, then one theorem per claim. -/

theorem histInv_step (s : List HistoryState × Nat) (op : HistOp) (h : HistInv s) :
    HistInv (histStep s op) := by
  obtain ⟨hpos, hle, hidx⟩ := h
  cases op with
  | push content cursor =>
    refine ⟨?_, ?_, ?_⟩ <;>
      simp only [histStep, addToHistory, HistInv, List.length_drop, List.length_append,
        List.length_take, List.length_singleton, Nat.min_def] <;>
      split_ifs <;> omega
  | undo =>
    simp only [histStep, handleUndo, HistInv]
    split_ifs <;> exact ⟨hpos, hle, by omega⟩
  | redo =>
    simp only [histStep, handleRedo, HistInv]
    split_ifs <;> exact ⟨hpos, hle, by omega⟩

theorem histInv_foldl : ∀ (ops : List HistOp) (s : List HistoryState × Nat),
    HistInv s → HistInv (ops.foldl histStep s)
  | [], _, h => h
  | op :: ops, s, h => by
    rw [List.foldl_cons]
    exact histInv_foldl ops (histStep s op) (histInv_step s op h)

set_option maxRecDepth 20000 in
/-- C2: starting from the single-entry initial history, every sequence of
push/undo/redo operations keeps the buffer non-empty with at most 50 entries
and the cursor inside `[0, length-1]`; concretely, 60 pushes starting from
the initial entry leave exactly the last 50 pushed entries (the oldest 10
pushed entries — and the initial entry — discarded) with the cursor at the
new tail, index 49. -/
theorem history_bounded_and_cursor_in_range :
    (∀ (value : String) (ops : List HistOp), HistInv (runOps value ops)) ∧
    runOps ("init") (pushOps 60) =
      ((List.range 50).map (fun k => ⟨toString (k + 11), 0⟩), 49) := by
  constructor
  · intro value ops
    exact histInv_foldl ops (initHistory value) (by simp [initHistory, HistInv])
  · decide

/-- C3: `undo` steps the cursor back and reports the entry now pointed to
exactly when the cursor is positive, `redo` steps it forward and reports the
entry exactly when the cursor is below `length - 1`, and each is a no-op
reporting nothing otherwise; concretely, pushing A, B, C then undoing twice
points at content A, a following push of D truncates B and C and moves the
cursor to the new tail, after which redo is a no-op reporting nothing. -/
theorem undo_redo_semantics (history : List HistoryState) (historyIndex : Nat)
    (hidx : historyIndex < history.length) :
    (0 < historyIndex →
      handleUndo history historyIndex =
        (historyIndex - 1, history[historyIndex - 1]?) ∧
      (history[historyIndex - 1]?).isSome = true) ∧
    (historyIndex = 0 → handleUndo history historyIndex = (historyIndex, Option.none)) ∧
    (historyIndex + 1 < history.length →
      handleRedo history historyIndex =
        (historyIndex + 1, history[historyIndex + 1]?) ∧
      (history[historyIndex + 1]?).isSome = true) ∧
    (history.length ≤ historyIndex + 1 →
      handleRedo history historyIndex = (historyIndex, Option.none)) ∧
    (runOps ("i") [HistOp.push ("A") 0, HistOp.push ("B") 0, HistOp.push ("C") 0] =
      ([⟨"i", 0⟩, ⟨"A", 0⟩, ⟨"B", 0⟩, ⟨"C", 0⟩], 3) ∧
      handleUndo [⟨"i", 0⟩, ⟨"A", 0⟩, ⟨"B", 0⟩, ⟨"C", 0⟩] 3 = (2, Option.some ⟨"B", 0⟩) ∧
      handleUndo [⟨"i", 0⟩, ⟨"A", 0⟩, ⟨"B", 0⟩, ⟨"C", 0⟩] 2 = (1, Option.some ⟨"A", 0⟩) ∧
      addToHistory [⟨"i", 0⟩, ⟨"A", 0⟩, ⟨"B", 0⟩, ⟨"C", 0⟩] 1 ("D") 0 =
        ([⟨"i", 0⟩, ⟨"A", 0⟩, ⟨"D", 0⟩], 2) ∧
      handleRedo [⟨"i", 0⟩, ⟨"A", 0⟩, ⟨"D", 0⟩] 2 = (2, Option.none)) := by
  refine ⟨?_, ?_, ?_, ?_, by decide⟩
  · intro hpos
    refine ⟨by rw [handleUndo, if_pos hpos], ?_⟩
    rw [List.getElem?_eq_getElem (by omega : historyIndex - 1 < history.length)]
    rfl
  · intro h0
    rw [handleUndo, if_neg (by omega)]
  · intro hlt
    refine ⟨by rw [handleRedo, if_pos hlt], ?_⟩
    rw [List.getElem?_eq_getElem (by omega : historyIndex + 1 < history.length)]
    rfl
  · intro hge
    rw [handleRedo, if_neg (by omega)]

/-- Witness for C3 at a concrete two-entry history with the cursor at 1. -/
theorem undo_redo_semantics_witness :
    handleUndo [⟨"a", 0⟩, ⟨"b", 1⟩] 1 = (0, Option.some ⟨"a", 0⟩) := by
  have h := (undo_redo_semantics [⟨"a", 0⟩, ⟨"b", 1⟩] 1 (by decide)).1 (by decide)
  rw [h.1]
  decide

/-- C10: filtering with the empty search term returns the node list
unchanged — every node kept, children intact, order preserved. -/
theorem filteredFiles_empty_term_identity (nodes : NodeList) :
    filteredFiles ("") nodes = nodes := by
  simp [filteredFiles]

theorem validateFileName_none_iff (name : String) :
    validateFileName name = Option.none ↔ ¬ NameRejects name := by
  unfold validateFileName NameRejects
  constructor
  · intro h
    split_ifs at h with h1 h2 h3 h4
    rintro (hc | hc | hc | hc | hc)
    · exact h1 hc
    · exact h2 (by simp [hc])
    · exact h2 (by simp [hc])
    · exact h3 hc
    · exact h4 hc
  · intro h
    have h1 : ¬ strTrim name = "" := fun x => h (Or.inl x)
    have h2 : ¬ (strHasChar name '/' || strHasChar name '\\') = true := by
      intro hx
      rcases Bool.or_eq_true_iff.1 hx with ha | hb
      · exact h (Or.inr (Or.inl ha))
      · exact h (Or.inr (Or.inr (Or.inl hb)))
    have h3 : ¬ 255 < name.length := fun x => h (Or.inr (Or.inr (Or.inr (Or.inl x))))
    have h4 : ¬ strStartsWithChar name '.' = true :=
      fun x => h (Or.inr (Or.inr (Or.inr (Or.inr x))))
    rw [if_neg h1, if_neg h2, if_neg h3, if_neg h4]

theorem nodeListAny_eq_true (p : FileNode → Bool) :
    ∀ l : NodeList, l.any p = true ↔ ∃ c ∈ l.toList, p c = true
  | .nil => by simp [NodeList.any, NodeList.toList]
  | .cons n tl => by
    simp only [NodeList.any, NodeList.toList, Bool.or_eq_true, List.mem_cons,
      nodeListAny_eq_true p tl]
    constructor
    · rintro (h | ⟨c, hc, hp⟩)
      · exact ⟨n, Or.inl rfl, h⟩
      · exact ⟨c, Or.inr hc, hp⟩
    · rintro ⟨c, (rfl | hc), hp⟩
      · exact Or.inl hp
      · exact Or.inr ⟨c, hc, hp⟩

/-- C1: with the parent present (a root entry carrying a `children` array
`cs`), `createNewFile` fails — leaving the tree untouched — exactly when the
name is empty after trimming, contains `/` or `\`, exceeds 255 characters,
starts with a dot, or equals an existing sibling's name; and when none of
these hold it succeeds with the new file node appended to the parent's
children. -/
theorem createNewFile_validation (files : NodeList) (rt : FileNode)
    (cs rest : NodeList) (hfiles : files = NodeList.cons rt rest)
    (hch : rt.children = OptNodes.some cs) (nm newId : String) :
    ((∃ e, createNewFile files nm newId = Except.error e) ↔ CreateRejects nm cs) ∧
    (¬ CreateRejects nm cs →
      createNewFile files nm newId =
        Except.ok (NodeList.cons
          (rt.setChildren (OptNodes.some (cs.push (newFileNode newId nm)))) rest)) := by
  subst hfiles
  obtain ⟨ri, rnm, rty, rch, rct, rsz⟩ := rt
  simp only [FileNode.children] at hch
  subst hch
  have hdup : isDuplicateName
      (NodeList.cons (FileNode.mk ri rnm rty (OptNodes.some cs) rct rsz) rest) nm =
      cs.any (fun c => c.name = nm) := rfl
  constructor
  · constructor
    · rintro ⟨e, he⟩
      unfold createNewFile at he
      cases hv : validateFileName nm with
      | some err =>
        exact Or.inl ((not_not).1 (fun hn =>
          by rw [(validateFileName_none_iff nm).2 hn] at hv; cases hv))
      | none =>
        rw [hv, hdup] at he
        by_cases hd : cs.any (fun c => c.name = nm) = true
        · refine Or.inr ?_
          obtain ⟨c, hc, hp⟩ := (nodeListAny_eq_true _ cs).1 hd
          exact ⟨c, hc, by simpa using hp⟩
        · rw [if_neg hd] at he
          cases he
    · intro hrej
      unfold createNewFile
      cases hv : validateFileName nm with
      | some err => exact ⟨err, rfl⟩
      | none =>
        have hnr : ¬ NameRejects nm := (validateFileName_none_iff nm).1 hv
        have hd : cs.any (fun c => c.name = nm) = true := by
          rcases hrej with h | ⟨c, hc, hp⟩
          · exact absurd h hnr
          · exact (nodeListAny_eq_true _ cs).2 ⟨c, hc, by simpa using hp⟩
        rw [hdup, if_pos hd]
        exact ⟨"File with this name already exists", rfl⟩
  · intro hrej
    have hnr : ¬ NameRejects nm := fun h => hrej (Or.inl h)
    have hnd : ¬ ∃ c ∈ cs.toList, c.name = nm := fun h => hrej (Or.inr h)
    have hd : cs.any (fun c => c.name = nm) = false := by
      cases hda : cs.any (fun c => c.name = nm) with
      | false => rfl
      | true =>
        obtain ⟨c, hc, hp⟩ := (nodeListAny_eq_true _ cs).1 hda
        exact absurd ⟨c, hc, by simpa using hp⟩ hnd
    unfold createNewFile
    rw [(validateFileName_none_iff nm).2 hnr, hdup, if_neg (by simp [hd])]
    rfl

/-- Witness for C1: creating `a.js` in a tree whose root folder has an empty
child array succeeds and appends the new node. -/
theorem createNewFile_validation_witness :
    createNewFile demoFiles ("a.js") ("9") =
      Except.ok (NodeList.cons
        (demoRoot.setChildren
          (OptNodes.some (NodeList.nil.push (newFileNode ("9") ("a.js")))))
        NodeList.nil) := by
  exact (createNewFile_validation demoFiles demoRoot NodeList.nil NodeList.nil rfl rfl
    ("a.js") ("9")).2 (by decide)

/-- C6 (amended): when the node being deleted is the selected one and at
least one root-level child survives, the first surviving root child becomes
selected; when no root child survives, the selection value is left unchanged
(it still holds the deleted node — the source never clears it to none); the
tree itself always becomes `deleteFileFromTree` of the old tree. -/
theorem deleteFile_selection_fallback (files : NodeList) (sel : FileNode)
    (fid : String) (hfound : (findFileById fid files).isSome = true)
    (hsel : sel.id = fid) :
    (∀ (cs : NodeList) (f : FileNode),
      rootChildren files = Option.some cs →
      (cs.filter (fun n => !(n.id = fid))).head? = Option.some f →
      (deleteFile files (Option.some sel) fid).2 = Option.some f) ∧
    (∀ cs : NodeList,
      rootChildren files = Option.some cs →
      (cs.filter (fun n => !(n.id = fid))).head? = Option.none →
      (deleteFile files (Option.some sel) fid).2 = Option.some sel) ∧
    (deleteFile files (Option.some sel) fid).1 = deleteFileFromTree fid files := by
  obtain ⟨found, hfd⟩ := Option.isSome_iff_exists.1 hfound
  refine ⟨?_, ?_, ?_⟩
  · intro cs f hcs hhd
    unfold deleteFile
    rw [hfd]
    simp [hsel, hcs, hhd]
  · intro cs hcs hhd
    unfold deleteFile
    rw [hfd]
    simp [hsel, hcs, hhd]
  · unfold deleteFile
    rw [hfd]

/-- Witness for C6 (amended): deleting selected `a.js` (id 2) while `b.js`
remains selects `b.js`. -/
theorem deleteFile_selection_fallback_witness :
    (deleteFile demoTwoFiles (Option.some demoA) ("2")).2 = Option.some demoB := by
  exact (deleteFile_selection_fallback demoTwoFiles demoA ("2") (by decide) (by decide)).1
    (NodeList.cons demoA (NodeList.cons demoB NodeList.nil)) demoB (by decide) (by decide)

/-- C6 counterexample: deleting the only remaining node — which is selected —
does not clear the selection: afterwards the selection still holds the
deleted node instead of none, refuting "no node is selected afterwards". -/
theorem deleteFile_selection_counterexample :
    demoA.id = "2" ∧
    rootChildren demoSingle = Option.some (NodeList.cons demoA NodeList.nil) ∧
    (deleteFile demoSingle (Option.some demoA) ("2")).1 =
      NodeList.cons (FileNode.mk ("1") ("src") NodeType.folder
        (OptNodes.some NodeList.nil) Option.none Option.none) NodeList.nil ∧
    (deleteFile demoSingle (Option.some demoA) ("2")).2 = Option.some demoA ∧
    (deleteFile demoSingle (Option.some demoA) ("2")).2 ≠ Option.none := by
  refine ⟨rfl, rfl, rfl, rfl, ?_⟩
  intro h
  rw [show (deleteFile demoSingle (Option.some demoA) ("2")).2 =
    Option.some demoA from rfl] at h
  exact Option.noConfusion h

/-- C7 (amended): renaming runs only the name validation — it fails, leaving
the tree untouched, exactly when the new name is empty after trimming,
contains a path separator, exceeds 255 characters or starts with a dot; a
collision with an existing sibling's name is not checked, and on success the
node with the edited id gets the new name (shown both as the stored
`updateFileInTree` result and through `findFileById`). -/
theorem confirmEdit_validation (files : NodeList) (fid : String) (nm : String) :
    ((∃ e, confirmEdit files (Option.some fid) nm = Except.error e) ↔ NameRejects nm) ∧
    (¬ NameRejects nm →
      confirmEdit files (Option.some fid) nm =
        Except.ok (updateFileInTree fid (fun file => file.setName nm) files)) := by
  constructor
  · constructor
    · rintro ⟨e, he⟩
      unfold confirmEdit at he
      by_contra hn
      rw [(validateFileName_none_iff nm).2 hn] at he
      cases he
    · intro hrej
      unfold confirmEdit
      cases hv : validateFileName nm with
      | some err => exact ⟨err, rfl⟩
      | none => exact absurd hrej (by simpa using (validateFileName_none_iff nm).1 hv)
  · intro hn
    unfold confirmEdit
    rw [(validateFileName_none_iff nm).2 hn]

/-- Witness for C7 (amended): renaming node 3 to the fresh name `c.js`
succeeds. -/
theorem confirmEdit_validation_witness :
    confirmEdit demoTwoFiles (Option.some ("3")) ("c.js") =
      Except.ok (updateFileInTree ("3") (fun file => file.setName ("c.js"))
        demoTwoFiles) := by
  exact (confirmEdit_validation demoTwoFiles ("3") ("c.js")).2 (by decide)

/-- C7 counterexample: renaming `b.js` (id 3) to `a.js` — the name of its
sibling — does not fail: `confirmEdit` runs only `validateFileName`, so the
rename succeeds although the claim requires a ValidationError on sibling
collision. -/
theorem confirmEdit_collision_counterexample :
    demoA.name = "a.js" ∧ demoB.id = "3" ∧ (demoA.id = "3") = False ∧
    rootChildren demoTwoFiles =
      Option.some (NodeList.cons demoA (NodeList.cons demoB NodeList.nil)) ∧
    confirmEdit demoTwoFiles (Option.some ("3")) ("a.js") =
      Except.ok (NodeList.cons
        (FileNode.mk ("1") ("src") NodeType.folder
          (OptNodes.some (NodeList.cons demoA
            (NodeList.cons (demoB.setName ("a.js")) NodeList.nil)))
          Option.none Option.none) NodeList.nil) ∧
    ¬ ∃ e, confirmEdit demoTwoFiles (Option.some ("3")) ("a.js") = Except.error e := by
  refine ⟨rfl, rfl, by simp [demoA, FileNode.id], rfl, rfl, ?_⟩
  rintro ⟨e, he⟩
  rw [show confirmEdit demoTwoFiles (Option.some ("3")) ("a.js") =
    Except.ok (NodeList.cons
      (FileNode.mk ("1") ("src") NodeType.folder
        (OptNodes.some (NodeList.cons demoA
          (NodeList.cons (demoB.setName ("a.js")) NodeList.nil)))
        Option.none Option.none) NodeList.nil) from rfl] at he
  cases he

theorem map_mark_fresh (uid : String) (g : Message → Message) :
    ∀ msgs : List Message, (∀ m ∈ msgs, m.id ≠ uid) →
      msgs.map (fun msg => if msg.id = uid then g msg else msg) = msgs
  | [], _ => rfl
  | m :: ms, h => by
    rw [List.map_cons, if_neg (h m (by simp)),
      map_mark_fresh uid g ms (fun x hx => h x (by simp [hx]))]

/-- C8: a failed send (the awaited generation request fails) flips the
connection state to `error` and leaves the message list as the old messages
plus the user's message (marked sent) plus the failure-indicator assistant
entry; exactly one request was issued (`requestsMade = 1` — retry only
happens if the user presses the Retry button, which calls `handleSend`
again), nothing is offered for insertion, and the retry counter grows. -/
theorem failed_send_spec (st : ChatState) (input : String) (now tokens : Nat)
    (hvalid : validateInput input = Option.none)
    (hfresh : ∀ m ∈ st.messages, m.id ≠ toString now) :
    handleSend st input now tokens SendOutcome.failure =
      ⟨⟨st.messages ++
          [⟨toString now, ChatRole.user, strTrim input, Option.some MsgStatus.sent,
            Option.none⟩,
           ⟨toString (now + 2), ChatRole.assistant,
             "Sorry, I encountered an error. Please check your Ollama connection and try again.",
             Option.some MsgStatus.error, Option.none⟩],
        ConnStatus.error, st.retryCount + 1⟩, Option.none, 1⟩ := by
  unfold handleSend
  rw [hvalid]
  simp only [List.map_append, map_mark_fresh (toString now) _ st.messages hfresh,
    List.map_cons, List.map_nil, if_pos rfl]
  simp [Message.setStatus]

/-- Witness for C8 at a concrete state: empty history, input `hello`,
`Date.now()` = 5. -/
theorem failed_send_spec_witness :
    handleSend ⟨[], ConnStatus.connected, 0⟩ ("hello") 5 0 SendOutcome.failure =
      ⟨⟨[⟨"5", ChatRole.user, "hello", Option.some MsgStatus.sent, Option.none⟩,
         ⟨"7", ChatRole.assistant,
           "Sorry, I encountered an error. Please check your Ollama connection and try again.",
           Option.some MsgStatus.error, Option.none⟩],
        ConnStatus.error, 1⟩, Option.none, 1⟩ := by
  rw [failed_send_spec ⟨[], ConnStatus.connected, 0⟩ ("hello") 5 0 (by decide)
    (by intro m hm; cases hm)]
  decide

mutual
theorem update_absent_nodes (tid : String) (f : FileNode → FileNode) :
    ∀ nodes : NodeList, findFileById tid nodes = Option.none →
      updateFileInTree tid f nodes = nodes
  | .nil, _ => rfl
  | .cons (FileNode.mk i nm ty ch ct sz) rest, h => by
    rw [findFileById] at h
    by_cases hid : i = tid
    · rw [if_pos hid] at h
      cases h
    · rw [if_neg hid] at h
      rw [updateFileInTree, if_neg hid]
      cases hb : findBelow tid ch with
      | some x =>
        simp only [hb] at h
        exact Option.noConfusion h
      | none =>
        simp only [hb] at h
        rw [update_absent_below tid f ch hb, update_absent_nodes tid f rest h]
theorem update_absent_below (tid : String) (f : FileNode → FileNode) :
    ∀ ch : OptNodes, findBelow tid ch = Option.none → updateBelow tid f ch = ch
  | .none, _ => rfl
  | .some cs, h => by
    rw [findBelow] at h
    rw [updateBelow, update_absent_nodes tid f cs h]
end

mutual
theorem find_update_nodes (tid : String) (f : FileNode → FileNode)
    (hf : ∀ m, (f m).id = m.id) :
    ∀ nodes : NodeList,
      findFileById tid (updateFileInTree tid f nodes) = (findFileById tid nodes).map f
  | .nil => by simp [updateFileInTree, findFileById]
  | .cons (FileNode.mk i nm ty ch ct sz) rest => by
    by_cases hid : i = tid
    · rcases hfn : f (FileNode.mk i nm ty ch ct sz) with ⟨fi, fnm, fty, fch, fct, fsz⟩
      have hfi : fi = i := by
        have hh := hf (FileNode.mk i nm ty ch ct sz)
        rw [hfn] at hh
        simpa [FileNode.id] using hh
      subst hfi
      rw [updateFileInTree, if_pos hid, hfn, findFileById, if_pos hid, findFileById,
        if_pos hid, Option.map_some', hfn]
    · rw [updateFileInTree, if_neg hid, findFileById, if_neg hid, findFileById,
        if_neg hid, find_update_below tid f hf ch]
      cases hb : findBelow tid ch with
      | some x => simp [hb]
      | none => simp [hb, find_update_nodes tid f hf rest]
theorem find_update_below (tid : String) (f : FileNode → FileNode)
    (hf : ∀ m, (f m).id = m.id) :
    ∀ ch : OptNodes, findBelow tid (updateBelow tid f ch) = (findBelow tid ch).map f
  | .none => by simp [updateBelow, findBelow]
  | .some cs => by
    rw [updateBelow, findBelow, findBelow]
    exact find_update_nodes tid f hf cs
end

theorem update_get? (tid : String) (f : FileNode → FileNode) :
    ∀ (nodes : NodeList) (i : Nat),
      (updateFileInTree tid f nodes).get? i = (nodes.get? i).map (updOne tid f)
  | .nil, _ => by simp [updateFileInTree, NodeList.get?]
  | .cons (FileNode.mk i0 nm ty ch ct sz) rest, 0 => rfl
  | .cons (FileNode.mk i0 nm ty ch ct sz) rest, (i + 1) => update_get? tid f rest i

theorem getAtPath_single (nodes : NodeList) (i : Nat) :
    getAtPath nodes [i] = nodes.get? i := rfl

theorem getAtPath_cons_some (nodes : NodeList) (i : Nat) (m : FileNode) (q : List Nat)
    (hq : q ≠ []) (hm : nodes.get? i = Option.some m) :
    getAtPath nodes (i :: q) = getAtPath m.childNodes q := by
  cases q with
  | nil => exact absurd rfl hq
  | cons j p => simp [getAtPath, hm]

theorem childNodes_updOne (tid : String) (f : FileNode → FileNode) (n : FileNode)
    (hn : n.id ≠ tid) :
    (updOne tid f n).childNodes = updateFileInTree tid f n.childNodes := by
  obtain ⟨i, nm, ty, ch, ct, sz⟩ := n
  simp only [FileNode.id] at hn
  rw [updOne]
  simp only [FileNode.id, if_neg hn]
  cases ch <;>
    simp [FileNode.setChildren, FileNode.childNodes, FileNode.children, updateBelow,
      updateFileInTree]

theorem frame_aux (tid : String) (f : FileNode → FileNode) :
    ∀ (p : List Nat) (nodes : NodeList) (n : FileNode),
      getAtPath nodes p = Option.some n →
      (∀ (q r : List Nat) (m : FileNode), p = q ++ r → r ≠ [] →
        getAtPath nodes q = Option.some m → m.id ≠ tid) →
      n.id ≠ tid →
      getAtPath (updateFileInTree tid f nodes) p =
        Option.some (n.setChildren (updateBelow tid f n.children))
  | [], nodes, n, hget, _, _ => by simp [getAtPath] at hget
  | [i], nodes, n, hget, _, hn => by
    rw [getAtPath_single] at hget
    rw [getAtPath_single, update_get? tid f nodes i, hget, Option.map_some']
    rw [updOne, if_neg hn]
  | i :: j :: p', nodes, n, hget, hpre, hn => by
    cases hm : nodes.get? i with
    | none => simp [getAtPath, hm] at hget
    | some m0 =>
      have hm0 : m0.id ≠ tid :=
        hpre [i] (j :: p') m0 rfl (by simp)
          (by rw [getAtPath_single, hm])
      have hget' : getAtPath m0.childNodes (j :: p') = Option.some n := by
        rw [getAtPath_cons_some nodes i m0 (j :: p') (by simp) hm] at hget
        exact hget
      have hstep : (updateFileInTree tid f nodes).get? i =
          Option.some (updOne tid f m0) := by
        rw [update_get? tid f nodes i, hm, Option.map_some']
      rw [getAtPath_cons_some (updateFileInTree tid f nodes) i (updOne tid f m0)
        (j :: p') (by simp) hstep, childNodes_updOne tid f m0 hm0]
      refine frame_aux tid f (j :: p') m0.childNodes n hget' ?_ hn
      intro q r m hqr hr hq
      cases q with
      | nil => simp [getAtPath] at hq
      | cons q0 qs =>
        refine hpre (i :: q0 :: qs) r m (by simp [hqr]) hr ?_
        rw [getAtPath_cons_some nodes i m0 (q0 :: qs) (by simp) hm]
        exact hq

/-- C4: `updateFileInTree` (a) is the identity when the id is absent, (b)
replaces the node carrying the target id by the mutator's result (observed
through `findFileById`, for id-preserving mutators), and (c) leaves every
node at a path not passing through a target node observably unchanged — same
id, name, type, content and size — apart from the recursive replacement
inside its children. -/
theorem updateFileInTree_spec (tid : String) (f : FileNode → FileNode)
    (nodes : NodeList) :
    (findFileById tid nodes = Option.none → updateFileInTree tid f nodes = nodes) ∧
    ((∀ m, (f m).id = m.id) →
      findFileById tid (updateFileInTree tid f nodes) = (findFileById tid nodes).map f) ∧
    (∀ (p : List Nat) (n : FileNode),
      getAtPath nodes p = Option.some n →
      (∀ (q r : List Nat) (m : FileNode), p = q ++ r → r ≠ [] →
        getAtPath nodes q = Option.some m → m.id ≠ tid) →
      n.id ≠ tid →
      getAtPath (updateFileInTree tid f nodes) p =
        Option.some (n.setChildren (updateBelow tid f n.children))) :=
  ⟨update_absent_nodes tid f nodes,
   fun hf => find_update_nodes tid f hf nodes,
   fun p n hget hpre hn => frame_aux tid f p nodes n hget hpre hn⟩

/-- Witness for C4: updating an id absent from the demo tree leaves it
unchanged, and renaming node 3 is visible through `findFileById`. -/
theorem updateFileInTree_spec_witness :
    updateFileInTree ("zz") (fun m => m) demoTwoFiles = demoTwoFiles ∧
    findFileById ("3") (updateFileInTree ("3")
      (fun m => m.setName ("c.js")) demoTwoFiles) =
      Option.some (demoB.setName ("c.js")) := by
  constructor
  · exact (updateFileInTree_spec ("zz") (fun m => m) demoTwoFiles).1 (by decide)
  · have h := (updateFileInTree_spec ("3") (fun m => m.setName ("c.js"))
      demoTwoFiles).2.1 (fun m => by
        obtain ⟨i, nm, ty, ch, ct, sz⟩ := m
        rfl)
    rw [h]
    decide

mutual
theorem filterNodes_pos_iff (pred : String → Bool) :
    ∀ nodes : NodeList,
      0 < (filterNodes pred nodes).length ↔ hasMatchNodes pred nodes = true
  | .nil => by simp [filterNodes, hasMatchNodes, NodeList.length]
  | .cons (FileNode.mk i nm ty ch ct sz) rest => by
    rw [filterNodes, hasMatchNodes, hasMatchNode,
      ← keepBelow_eq_hasMatchBelow pred ch]
    by_cases hk : (pred nm || keepBelow pred ch) = true
    · rw [if_pos hk, hk]
      simp [NodeList.length]
    · rw [if_neg hk]
      rw [Bool.not_eq_true] at hk
      rw [hk]
      simp only [Bool.false_or]
      exact filterNodes_pos_iff pred rest
theorem keepBelow_eq_hasMatchBelow (pred : String → Bool) :
    ∀ ch : OptNodes, keepBelow pred ch = hasMatchBelow pred ch
  | .none => rfl
  | .some cs => by
    rw [keepBelow, hasMatchBelow]
    cases hmn : hasMatchNodes pred cs with
    | true =>
      simp only [decide_eq_true_eq]
      exact (filterNodes_pos_iff pred cs).2 hmn
    | false =>
      simp only [decide_eq_false_iff_not]
      intro hp
      rw [(filterNodes_pos_iff pred cs).1 hp] at hmn
      cases hmn
end

mutual
theorem filterNodes_eq_specNodes (pred : String → Bool) :
    ∀ nodes : NodeList, filterNodes pred nodes = filterSpecNodes pred nodes
  | .nil => rfl
  | .cons (FileNode.mk i nm ty ch ct sz) rest => by
    rw [filterNodes, filterSpecNodes, keepBelow_eq_hasMatchBelow pred ch]
    by_cases hk : (pred nm || hasMatchBelow pred ch) = true
    · rw [if_pos hk, if_pos hk, filterBelow_eq_specBelow pred ch,
        filterNodes_eq_specNodes pred rest]
    · rw [if_neg hk, if_neg hk, filterNodes_eq_specNodes pred rest]
theorem filterBelow_eq_specBelow (pred : String → Bool) :
    ∀ ch : OptNodes, filterBelow pred ch = filterSpecBelow pred ch
  | .none => rfl
  | .some cs => by
    rw [filterBelow, filterSpecBelow, filterNodes_eq_specNodes pred cs]
end

mutual
theorem preorder_filter_sublist (pred : String → Bool) :
    ∀ nodes : NodeList,
      (preorderIds (filterNodes pred nodes)).Sublist (preorderIds nodes)
  | .nil => by simp [filterNodes, preorderIds]
  | .cons (FileNode.mk i nm ty ch ct sz) rest => by
    rw [filterNodes]
    by_cases hk : (pred nm || keepBelow pred ch) = true
    · rw [if_pos hk, preorderIds, preorderIds]
      exact List.Sublist.cons₂ i
        ((preorder_filter_sublist_below pred ch).append
          (preorder_filter_sublist pred rest))
    · rw [if_neg hk, preorderIds]
      refine List.Sublist.trans (preorder_filter_sublist pred rest) ?_
      exact List.Sublist.cons i (List.sublist_append_right _ _)
theorem preorder_filter_sublist_below (pred : String → Bool) :
    ∀ ch : OptNodes,
      (preorderIdsBelow (filterBelow pred ch)).Sublist (preorderIdsBelow ch)
  | .none => by simp [filterBelow, preorderIdsBelow]
  | .some cs => by
    rw [filterBelow, preorderIdsBelow, preorderIdsBelow]
    exact preorder_filter_sublist pred cs
end

/-- C5: for every name predicate, the source's recursive filter coincides
with the spec's filter (keep exactly the nodes whose name matches or that
contain a descendant with a matching name; retained nodes keep only the
children surviving the same filter recursively); the preorder id sequence of
the output is a sublist of the input's, so no node is invented and relative
order is preserved; and for a non-empty search term `filteredFiles` is
exactly this filter under the case-insensitive substring predicate. -/
theorem filter_matches_spec :
    (∀ (pred : String → Bool) (nodes : NodeList),
      filterNodes pred nodes = filterSpecNodes pred nodes) ∧
    (∀ (pred : String → Bool) (nodes : NodeList),
      (preorderIds (filterNodes pred nodes)).Sublist (preorderIds nodes)) ∧
    (∀ (searchTerm : String) (nodes : NodeList), searchTerm ≠ "" →
      filteredFiles searchTerm nodes =
        filterSpecNodes (nameMatches searchTerm) nodes) := by
  refine ⟨fun pred nodes => filterNodes_eq_specNodes pred nodes,
    fun pred nodes => preorder_filter_sublist pred nodes,
    fun searchTerm nodes hne => ?_⟩
  rw [filteredFiles, if_neg hne]
  exact filterNodes_eq_specNodes (nameMatches searchTerm) nodes

/-- Witness for C5: filtering the demo tree for `b` keeps the folder (it has
a matching descendant) and drops `a.js`. -/
theorem filter_matches_spec_witness :
    filteredFiles ("b") demoTwoFiles =
      filterSpecNodes (nameMatches ("b")) demoTwoFiles ∧
    filteredFiles ("b") demoTwoFiles =
      NodeList.cons
        (FileNode.mk ("1") ("src") NodeType.folder
          (OptNodes.some (NodeList.cons demoB NodeList.nil))
          Option.none Option.none) NodeList.nil := by
  constructor
  · exact filter_matches_spec.2.2 ("b") demoTwoFiles (by decide)
  · decide

theorem findClose_decomp : ∀ (l b : List Char), findClose l = Option.some b →
    ∃ t, l = b ++ '\n' :: (fenceChars ++ t)
  | [], b, h => by simp [findClose] at h
  | c :: rest, b, h => by
    rw [findClose] at h
    by_cases hc : c = '\n' ∧ rest.take 3 = fenceChars
    · rw [if_pos hc] at h
      obtain rfl : ([] : List Char) = b := Option.some.inj h
      refine ⟨rest.drop 3, ?_⟩
      rw [List.nil_append, hc.1]
      rw [show fenceChars ++ rest.drop 3 = rest.take 3 ++ rest.drop 3 from by rw [hc.2],
        List.take_append_drop]
    · rw [if_neg hc] at h
      cases hr : findClose rest with
      | none => rw [hr] at h; cases h
      | some b0 =>
        rw [hr, Option.map_some'] at h
        obtain rfl : c :: b0 = b := Option.some.inj h
        obtain ⟨t, ht⟩ := findClose_decomp rest b0 hr
        exact ⟨t, by rw [ht, List.cons_append]⟩

theorem findClose_isSome : ∀ (x y : List Char),
    (findClose (x ++ '\n' :: (fenceChars ++ y))).isSome = true
  | [], y => by
    rw [List.nil_append, findClose, if_pos]
    · rfl
    · exact ⟨rfl, by
        rw [show (3 : Nat) = fenceChars.length from rfl, List.take_left]⟩
  | c :: x, y => by
    rw [List.cons_append, findClose]
    by_cases hc : c = '\n' ∧ (x ++ '\n' :: (fenceChars ++ y)).take 3 = fenceChars
    · rw [if_pos hc]; rfl
    · rw [if_neg hc]
      have hx := findClose_isSome x y
      cases hfc : findClose (x ++ '\n' :: (fenceChars ++ y)) with
      | none => rw [hfc] at hx; cases hx
      | some b0 => rfl

theorem findClose_min : ∀ (l b : List Char), findClose l = Option.some b →
    ∀ (b2 t2 : List Char), l = b2 ++ '\n' :: (fenceChars ++ t2) →
      b.length ≤ b2.length
  | [], b, h, _, _, _ => by simp [findClose] at h
  | c :: rest, b, h, b2, t2, hl => by
    rw [findClose] at h
    by_cases hc : c = '\n' ∧ rest.take 3 = fenceChars
    · rw [if_pos hc] at h
      obtain rfl : ([] : List Char) = b := Option.some.inj h
      simp
    · rw [if_neg hc] at h
      cases b2 with
      | nil =>
        exfalso
        rw [List.nil_append] at hl
        apply hc
        refine ⟨(List.cons.inj hl).1, ?_⟩
        rw [(List.cons.inj hl).2,
          show (3 : Nat) = fenceChars.length from rfl, List.take_left]
      | cons b2h b2t =>
        rw [List.cons_append] at hl
        cases hr : findClose rest with
        | none => rw [hr] at h; cases h
        | some b0 =>
          rw [hr, Option.map_some'] at h
          obtain rfl : c :: b0 = b := Option.some.inj h
          have hrec := findClose_min rest b0 hr b2t t2 ((List.cons.inj hl).2)
          simp only [List.length_cons]
          omega

theorem dropWhile_word_newline : ∀ (lang rest : List Char),
    lang.all wordChar = true →
    (lang ++ '\n' :: rest).dropWhile wordChar = '\n' :: rest
  | [], rest, _ => by
    rw [List.nil_append, List.dropWhile_cons, if_neg (by decide)]
  | c :: lang, rest, h => by
    simp only [List.all_cons, Bool.and_eq_true] at h
    rw [List.cons_append, List.dropWhile_cons, if_pos h.1]
    exact dropWhile_word_newline lang rest h.2

theorem matchAt_decomp (s b : List Char) (h : matchAt s = Option.some b) :
    ∃ lang body0, s = fenceChars ++ (lang ++ '\n' :: body0) ∧
      lang.all wordChar = true ∧ findClose body0 = Option.some b := by
  rw [matchAt] at h
  by_cases h3 : s.take 3 = fenceChars
  · rw [if_pos h3] at h
    cases hdw : (s.drop 3).dropWhile wordChar with
    | nil =>
      rw [hdw] at h
      exact Option.noConfusion h
    | cons c body0 =>
      rw [hdw] at h
      have hifd : (if c = '\n' then findClose body0 else Option.none) =
          Option.some b := h
      by_cases hc : c = '\n'
      · rw [if_pos hc] at hifd
        subst hc
        refine ⟨(s.drop 3).takeWhile wordChar, body0, ?_, by simp [List.all_eq_true],
          hifd⟩
        have hdw2 : s.drop 3 = (s.drop 3).takeWhile wordChar ++ '\n' :: body0 := by
          conv_lhs => rw [← List.takeWhile_append_dropWhile wordChar (s.drop 3)]
          rw [hdw]
        calc s = s.take 3 ++ s.drop 3 := (List.take_append_drop 3 s).symm
          _ = fenceChars ++ s.drop 3 := by rw [h3]
          _ = fenceChars ++ ((s.drop 3).takeWhile wordChar ++ '\n' :: body0) :=
            congrArg (fenceChars ++ ·) hdw2
      · rw [if_neg hc] at hifd
        exact Option.noConfusion hifd
  · rw [if_neg h3] at h
    cases h

theorem matchAt_fenced (lang body post : List Char) (hl : lang.all wordChar = true) :
    (matchAt (fenceChars ++ (lang ++ '\n' ::
      (body ++ '\n' :: (fenceChars ++ post))))).isSome = true := by
  rw [matchAt, if_pos (by rw [show (3 : Nat) = fenceChars.length from rfl, List.take_left]),
    show (3 : Nat) = fenceChars.length from rfl, List.drop_left,
    dropWhile_word_newline lang _ hl]
  simp only [if_pos rfl]
  exact findClose_isSome body post

theorem scanFor_exists : ∀ (s b : List Char), scanFor s = Option.some b →
    ∃ i, i ≤ s.length ∧ matchAt (s.drop i) = Option.some b ∧
      ∀ j, j < i → matchAt (s.drop j) = Option.none
  | [], b, h => by simp [scanFor] at h
  | c :: rest, b, h => by
    rw [scanFor] at h
    cases hm : matchAt (c :: rest) with
    | some b0 =>
      rw [hm] at h
      obtain rfl : b0 = b := Option.some.inj h
      exact ⟨0, by simp, by simpa using hm, fun j hj => absurd hj (by omega)⟩
    | none =>
      rw [hm] at h
      obtain ⟨i, hle, hmi, hnone⟩ := scanFor_exists rest b h
      refine ⟨i + 1, by simp; omega, by simpa [List.drop_succ_cons] using hmi, ?_⟩
      intro j hj
      cases j with
      | zero => simpa using hm
      | succ k =>
        rw [List.drop_succ_cons]
        exact hnone k (by omega)

theorem scanFor_isSome : ∀ (s : List Char) (i : Nat),
    (matchAt (s.drop i)).isSome = true → (scanFor s).isSome = true
  | [], i, h => by
    rw [List.drop_nil, show matchAt [] = Option.none from by decide] at h
    cases h
  | c :: rest, 0, h => by
    rw [List.drop_zero] at h
    rw [scanFor]
    cases hm : matchAt (c :: rest) with
    | some b => rfl
    | none => rw [hm] at h; cases h
  | c :: rest, (i + 1), h => by
    rw [List.drop_succ_cons] at h
    rw [scanFor]
    cases hm : matchAt (c :: rest) with
    | some b => rfl
    | none => exact scanFor_isSome rest i h

theorem word_run_unique : ∀ (l1 l2 u v : List Char), l1.all wordChar = true →
    l2.all wordChar = true → l1 ++ '\n' :: u = l2 ++ '\n' :: v →
    l1 = l2 ∧ u = v
  | [], [], u, v, _, _, h => by simpa using h
  | [], c2 :: l2, u, v, _, h2, h => by
    exfalso
    simp only [List.nil_append, List.cons_append, List.cons.injEq] at h
    simp only [List.all_cons, Bool.and_eq_true] at h2
    rw [← h.1] at h2
    exact absurd h2.1 (by decide)
  | c1 :: l1, [], u, v, h1, _, h => by
    exfalso
    simp only [List.nil_append, List.cons_append, List.cons.injEq] at h
    simp only [List.all_cons, Bool.and_eq_true] at h1
    rw [h.1] at h1
    exact absurd h1.1 (by decide)
  | c1 :: l1, c2 :: l2, u, v, h1, h2, h => by
    simp only [List.cons_append, List.cons.injEq] at h
    simp only [List.all_cons, Bool.and_eq_true] at h1 h2
    obtain ⟨hl, hu⟩ := word_run_unique l1 l2 u v h1.2 h2.2 h.2
    exact ⟨by rw [h.1, hl], hu⟩

/-- C9: after a successful reply the response is scanned with the code-block
regex and the body of the first fenced block is offered: (a) the offered
snippet of a successful `handleSend` is exactly `extractCodeBlock` of the
generated response; (b) whenever the scan returns a body, the text really
decomposes into a fenced block with that body, and that block is the first
one (no decomposition starts earlier, and at the same start none has a
shorter body); (c) whenever some fenced-block decomposition exists the scan
returns a snippet; (d) when no fenced block exists nothing is returned. -/
theorem code_block_scan (st : ChatState) (input : String) (now tokens : Nat) :
    (validateInput input = Option.none →
      (handleSend st input now tokens SendOutcome.success).offeredCode =
        extractCodeBlock (generateEnhancedResponse input)) ∧
    (∀ (s b : List Char), scanFor s = Option.some b →
      ∃ pre lang post, IsFencedAt s pre lang b post ∧
        ∀ (pre2 lang2 b2 post2 : List Char), IsFencedAt s pre2 lang2 b2 post2 →
          pre.length ≤ pre2.length ∧
          (pre2.length = pre.length → b.length ≤ b2.length)) ∧
    (∀ (s pre lang body post : List Char),
      IsFencedAt s pre lang body post → (scanFor s).isSome = true) ∧
    (∀ s : List Char,
      (∀ pre lang body post, ¬ IsFencedAt s pre lang body post) →
      scanFor s = Option.none) := by
  have hcomplete : ∀ (s pre lang body post : List Char),
      IsFencedAt s pre lang body post → (scanFor s).isSome = true := by
    intro s pre lang body post hfa
    obtain ⟨hs, hlang⟩ := hfa
    have hdrop : s.drop pre.length =
        fenceChars ++ (lang ++ '\n' :: (body ++ '\n' :: (fenceChars ++ post))) := by
      rw [hs]
      exact List.drop_left pre _
    refine scanFor_isSome s pre.length ?_
    rw [hdrop]
    exact matchAt_fenced lang body post hlang
  refine ⟨?_, ?_, hcomplete, ?_⟩
  · intro hvalid
    unfold handleSend
    rw [hvalid]
  · intro s b hscan
    obtain ⟨i, hile, hmi, hnone⟩ := scanFor_exists s b hscan
    obtain ⟨lang, body0, hsi, hlang, hfc⟩ := matchAt_decomp (s.drop i) b hmi
    obtain ⟨t, hbody0⟩ := findClose_decomp body0 b hfc
    have hpre : s = s.take i ++ (fenceChars ++ (lang ++ '\n' :: body0)) := by
      conv_lhs => rw [← List.take_append_drop i s]
      rw [hsi]
    have hpreLen : (s.take i).length = i := by
      rw [List.length_take]
      omega
    rw [hbody0] at hpre
    refine ⟨s.take i, lang, t, ⟨hpre, hlang⟩, ?_⟩
    · intro pre2 lang2 b2 post2 hfa2
      obtain ⟨hs2, hlang2⟩ := hfa2
      have hdrop2 : s.drop pre2.length =
          fenceChars ++ (lang2 ++ '\n' :: (b2 ++ '\n' :: (fenceChars ++ post2))) := by
        rw [hs2]
        exact List.drop_left pre2 _
      have hsome2 : (matchAt (s.drop pre2.length)).isSome = true := by
        rw [hdrop2]
        exact matchAt_fenced lang2 b2 post2 hlang2
      have hige : i ≤ pre2.length := by
        by_contra hlt
        rw [hnone pre2.length (by omega)] at hsome2
        cases hsome2
      refine ⟨by rw [hpreLen]; exact hige, ?_⟩
      intro heq
      rw [hpreLen] at heq
      have hdi : fenceChars ++ (lang ++ '\n' :: body0) =
          fenceChars ++ (lang2 ++ '\n' :: (b2 ++ '\n' :: (fenceChars ++ post2))) := by
        rw [← hsi, ← hdrop2, heq]
      have hcancel : lang ++ '\n' :: body0 =
          lang2 ++ '\n' :: (b2 ++ '\n' :: (fenceChars ++ post2)) :=
        List.append_cancel_left hdi
      obtain ⟨_, hbeq⟩ := word_run_unique lang lang2 _ _ hlang hlang2 hcancel
      exact findClose_min body0 b hfc b2 post2 hbeq
  · intro s hnot
    cases hscan : scanFor s with
    | none => rfl
    | some b =>
      exfalso
      obtain ⟨i, hile, hmi, _⟩ := scanFor_exists s b hscan
      obtain ⟨lang, body0, hsi, hlang, hfc⟩ := matchAt_decomp (s.drop i) b hmi
      obtain ⟨t, hbody0⟩ := findClose_decomp body0 b hfc
      have hpre : s = s.take i ++ (fenceChars ++ (lang ++ '\n' :: body0)) := by
        conv_lhs => rw [← List.take_append_drop i s]
        rw [hsi]
      rw [hbody0] at hpre
      exact hnot (s.take i) lang b t ⟨hpre, hlang⟩

/-- Witness for C9: the text `x`&#96;&#96;&#96;`js\nXY\n`&#96;&#96;&#96;
holds a fenced block, so the scan finds one — and it extracts exactly `XY`. -/
theorem code_block_scan_witness :
    (scanFor ("x```js\nXY\n```").data).isSome = true ∧
    extractCodeBlock ("x```js\nXY\n```") = Option.some ("XY") := by
  constructor
  · exact (code_block_scan ⟨[], ConnStatus.connected, 0⟩ ("") 0 0).2.2.1
      (("x```js\nXY\n```").data) (['x']) (['j', 's']) (['X', 'Y']) []
      (by constructor
          · decide
          · decide)
  · decide

end CodeScribe
